import Mathlib

/-!
Verification of the photo-export core of `api_vk.py`.

The development shallowly embeds the pure logic of the source file:
* `max_size` — the best-resolution selector (source lines 20-42);
* `pars_photo` / `extract_photo` — grouping by like count and building the
  export mapping (source lines 101-142), with the surrounding network calls
  abstracted into the list of photo records they deliver;
* `fill_folder` — the upload/skip decision loop (source lines 216-240),
  embedded as the plan it computes and the trace of upload requests it issues.

Python dictionaries are modelled as insertion-ordered association lists,
Python integers as `Nat` (they are unbounded and non-negative here), and the
fallible unpacking of `max_size`'s `None` as `Option`.
-/

/-- One size rendition of a photo: an entry of the `sizes` list in the VK
response (`width`, `height`, `url`, `type`). -/
structure Variant where
  width : Nat
  height : Nat
  url : String
  type : String
deriving DecidableEq

/-- One photo as consumed by `pars_photo`: its `likes.count` and its list of
size variants. -/
structure Photo where
  likes : Nat
  sizes : List Variant
deriving DecidableEq

/-- The pixel area `width * height` computed by `max_size` (`extent` in the
source). -/
def area (v : Variant) : Nat := v.width * v.height

/-- The scanning loop of `max_size` (source lines 32-38): `maxim_size` starts
at 0, `element` starts at -1 (modelled as `none`), and the current variant is
taken only when its area is strictly greater than the running maximum. -/
def max_size_go (maxim_size : Nat) (element : Option Variant) : List Variant → Option Variant
  | [] => element
  | v :: rest =>
    if area v > maxim_size then max_size_go (area v) (some v) rest
    else max_size_go maxim_size element rest

/-- `max_size` (source lines 20-42): returns the `(url, type)` of the variant
with maximal area, `none` on an empty list or when no variant was ever
selected (`element == -1`). -/
def max_size (dict_photo : List Variant) : Option (String × String) :=
  if dict_photo.isEmpty then none
  else
    match max_size_go 0 none dict_photo with
    | some v => some (v.url, v.type)
    | none => none

/-- Little-endian decimal digits with explicit fuel, mirroring how Python's
`str` renders a non-negative integer; structural recursion keeps it
kernel-computable. -/
def toDigitsRev : Nat → Nat → List Nat
  | 0, _ => []
  | fuel + 1, n => if n = 0 then [] else n % 10 :: toDigitsRev fuel (n / 10)

/-- The decimal rendering of a like count, as Python's f-string interpolation
of an `int` produces it. -/
def natName (n : Nat) : String :=
  if n = 0 then "0" else String.mk (((toDigitsRev n n).map Nat.digitChar).reverse)

theorem toDigitsRev_eq_digits : ∀ (fuel n : Nat), n ≤ fuel → toDigitsRev fuel n = Nat.digits 10 n := by
  intro fuel
  induction fuel with
  | zero =>
    intro n hn
    interval_cases n
    simp [toDigitsRev]
  | succ fuel ih =>
    intro n hn
    by_cases h0 : n = 0
    · simp [toDigitsRev, h0]
    · have hpos : 0 < n := Nat.pos_of_ne_zero h0
      have hdiv : n / 10 < n := Nat.div_lt_self hpos (by norm_num)
      have hle : n / 10 ≤ fuel := by omega
      rw [toDigitsRev, if_neg h0, ih (n / 10) hle, Nat.digits_def' (by norm_num : 1 < 10) hpos]

theorem digitChar_inj : ∀ a < 10, ∀ b < 10, Nat.digitChar a = Nat.digitChar b → a = b := by decide

theorem digitChar_ne_space : ∀ a < 10, Nat.digitChar a ≠ ' ' := by decide

theorem map_digitChar_inj : ∀ (l1 l2 : List Nat), (∀ d ∈ l1, d < 10) → (∀ d ∈ l2, d < 10) →
    l1.map Nat.digitChar = l2.map Nat.digitChar → l1 = l2 := by
  intro l1
  induction l1 with
  | nil =>
    intro l2 _ _ h
    cases l2 with
    | nil => rfl
    | cons b t => simp at h
  | cons a t1 ih =>
    intro l2 h1 h2 h
    cases l2 with
    | nil => simp at h
    | cons b t2 =>
      simp only [List.map_cons, List.cons.injEq] at h
      have ha : a < 10 := h1 a (by simp)
      have hb : b < 10 := h2 b (by simp)
      have hab : a = b := digitChar_inj a ha b hb h.1
      have ht : t1 = t2 := ih t2 (fun d hd => h1 d (by simp [hd])) (fun d hd => h2 d (by simp [hd])) h.2
      rw [hab, ht]

theorem natName_data (n : Nat) (hn : n ≠ 0) :
    (natName n).data = ((Nat.digits 10 n).map Nat.digitChar).reverse := by
  rw [natName, if_neg hn, toDigitsRev_eq_digits n n (le_refl n)]

theorem natName_inj : Function.Injective natName := by
  intro a b h
  by_cases ha : a = 0 <;> by_cases hb : b = 0
  · rw [ha, hb]
  · exfalso
    have hd : (natName a).data = (natName b).data := by rw [h]
    rw [ha, natName_data b hb] at hd
    have hd' : ['0'] = ((Nat.digits 10 b).map Nat.digitChar).reverse := hd
    have hrev : (Nat.digits 10 b).map Nat.digitChar = ['0'] := by
      have := congrArg List.reverse hd'
      simpa using this.symm
    have hb10 : ∀ d ∈ Nat.digits 10 b, d < 10 := fun d hd =>
      Nat.digits_lt_base (by norm_num) hd
    have hzero : Nat.digits 10 b = [0] := by
      have h01 : ([0] : List Nat).map Nat.digitChar = ['0'] := by decide
      exact map_digitChar_inj (Nat.digits 10 b) [0] hb10 (by decide) (hrev.trans h01.symm)
    have := Nat.ofDigits_digits 10 b
    rw [hzero] at this
    simp [Nat.ofDigits] at this
    exact hb this.symm
  · exfalso
    have hd : (natName a).data = (natName b).data := by rw [h]
    rw [hb, natName_data a ha] at hd
    have hrev : (Nat.digits 10 a).map Nat.digitChar = ['0'] := by
      have := congrArg List.reverse hd
      simpa using this
    have ha10 : ∀ d ∈ Nat.digits 10 a, d < 10 := fun d hd =>
      Nat.digits_lt_base (by norm_num) hd
    have hzero : Nat.digits 10 a = [0] := by
      have h01 : ([0] : List Nat).map Nat.digitChar = ['0'] := by decide
      exact map_digitChar_inj (Nat.digits 10 a) [0] ha10 (by decide) (hrev.trans h01.symm)
    have := Nat.ofDigits_digits 10 a
    rw [hzero] at this
    simp [Nat.ofDigits] at this
    exact ha this.symm
  · have hd : (natName a).data = (natName b).data := by rw [h]
    rw [natName_data a ha, natName_data b hb] at hd
    have hmap : (Nat.digits 10 a).map Nat.digitChar = (Nat.digits 10 b).map Nat.digitChar :=
      List.reverse_injective hd
    have hdig : Nat.digits 10 a = Nat.digits 10 b :=
      map_digitChar_inj _ _ (fun d hd => Nat.digits_lt_base (by norm_num) hd)
        (fun d hd => Nat.digits_lt_base (by norm_num) hd) hmap
    exact Nat.digits.injective 10 hdig

theorem space_not_mem_natName (n : Nat) : ' ' ∉ (natName n).data := by
  by_cases hn : n = 0
  · rw [hn]
    decide
  · rw [natName_data n hn]
    intro hmem
    rw [List.mem_reverse, List.mem_map] at hmem
    obtain ⟨d, hd, hdc⟩ := hmem
    exact digitChar_ne_space d (Nat.digits_lt_base (by norm_num) hd) hdc

theorem max_size_go_spec (l : List Variant) : ∀ (m : Nat) (e : Option Variant),
    (max_size_go m e l = e ∧ ∀ w ∈ l, area w ≤ m) ∨
    (∃ l1 v l2, l = l1 ++ v :: l2 ∧ max_size_go m e l = some v ∧ m < area v ∧
      (∀ w ∈ l1, area w < area v) ∧ (∀ w ∈ l2, area w ≤ area v)) := by
  induction l with
  | nil =>
    intro m e
    left
    exact ⟨rfl, by simp⟩
  | cons v rest ih =>
    intro m e
    by_cases hv : area v > m
    · rcases ih (area v) (some v) with ⟨heq, hle⟩ | ⟨l1, w, l2, hsplit, heq, hlt, hl1, hl2⟩
      · right
        refine ⟨[], v, rest, rfl, ?_, hv, by simp, hle⟩
        rw [max_size_go, if_pos hv, heq]
      · right
        refine ⟨v :: l1, w, l2, by rw [hsplit, List.cons_append], ?_, lt_trans hv hlt, ?_, hl2⟩
        · rw [max_size_go, if_pos hv, heq]
        · intro x hx
          rcases List.mem_cons.mp hx with hx | hx
          · rw [hx]; exact hlt
          · exact hl1 x hx
    · push_neg at hv
      rcases ih m e with ⟨heq, hle⟩ | ⟨l1, w, l2, hsplit, heq, hlt, hl1, hl2⟩
      · left
        constructor
        · rw [max_size_go, if_neg (by omega), heq]
        · intro x hx
          rcases List.mem_cons.mp hx with hx | hx
          · rw [hx]; exact hv
          · exact hle x hx
      · right
        refine ⟨v :: l1, w, l2, by rw [hsplit, List.cons_append], ?_, hlt, ?_, hl2⟩
        · rw [max_size_go, if_neg (by omega), heq]
        · intro x hx
          rcases List.mem_cons.mp hx with hx | hx
          · rw [hx]; exact lt_of_le_of_lt hv hlt
          · exact hl1 x hx

/-- C3: for a non-empty variant list with positive widths and heights,
`max_size` returns the url and size tag of a variant of maximal area, and on
ties the first such variant in input order (every strictly earlier variant
has strictly smaller area). -/
theorem max_size_first_max (l : List Variant) (hne : l ≠ [])
    (hpos : ∀ v ∈ l, 0 < v.width ∧ 0 < v.height) :
    ∃ l1 v l2, l = l1 ++ v :: l2 ∧ max_size l = some (v.url, v.type) ∧
      (∀ w ∈ l, area w ≤ area v) ∧ (∀ w ∈ l1, area w < area v) := by
  rcases max_size_go_spec l 0 none with ⟨_, hle⟩ | ⟨l1, v, l2, hsplit, heq, _, hl1, hl2⟩
  · exfalso
    cases l with
    | nil => exact hne rfl
    | cons a rest =>
      have h1 := hle a (by simp)
      have h2 := hpos a (by simp)
      have : 0 < area a := Nat.mul_pos h2.1 h2.2
      omega
  · refine ⟨l1, v, l2, hsplit, ?_, ?_, hl1⟩
    · rw [max_size]
      cases l with
      | nil => exact absurd rfl hne
      | cons a rest =>
        rw [if_neg (by simp), heq]
    · intro w hw
      rw [hsplit] at hw
      rcases List.mem_append.mp hw with hw | hw
      · exact le_of_lt (hl1 w hw)
      · rcases List.mem_cons.mp hw with hw | hw
        · rw [hw]
        · exact hl2 w hw

/-- Witness for C3 at the spec's own scenario: variants 10×20 ("a") and
30×10 ("b"); the selector returns "b" with area 300. -/
theorem max_size_first_max_witness :
    ∃ l1 v l2, [Variant.mk 10 20 "a" "s", Variant.mk 30 10 "b" "m"] = l1 ++ v :: l2 ∧
      max_size [Variant.mk 10 20 "a" "s", Variant.mk 30 10 "b" "m"] = some (v.url, v.type) ∧
      (∀ w ∈ [Variant.mk 10 20 "a" "s", Variant.mk 30 10 "b" "m"], area w ≤ area v) ∧
      (∀ w ∈ l1, area w < area v) :=
  max_size_first_max [Variant.mk 10 20 "a" "s", Variant.mk 30 10 "b" "m"] (by decide)
    (by decide)

/-- C7: on an empty variant list, `max_size` returns `None` (no result)
rather than a variant. -/
theorem max_size_nil : max_size [] = none := rfl

/-- C9: on any variant list in which every variant's width×height product is
zero, `max_size` returns `None` even when the list is non-empty, and a
variant is returned only when some variant has strictly positive area. -/
theorem max_size_zero_area (l : List Variant) :
    ((∀ v ∈ l, v.width * v.height = 0) → max_size l = none) ∧
    (∀ x, max_size l = some x → ∃ v ∈ l, 0 < v.width * v.height) := by
  constructor
  · intro hzero
    rcases max_size_go_spec l 0 none with ⟨heq, _⟩ | ⟨l1, v, l2, hsplit, _, hlt, _, _⟩
    · rw [max_size]
      cases l with
      | nil => rfl
      | cons a rest =>
        rw [if_neg (by simp), heq]
    · exfalso
      have hv : v ∈ l := by rw [hsplit]; simp
      have := hzero v hv
      rw [area] at hlt
      omega
  · intro x hx
    rcases max_size_go_spec l 0 none with ⟨heq, _⟩ | ⟨l1, v, l2, hsplit, heq, hlt, _, _⟩
    · exfalso
      rw [max_size] at hx
      cases l with
      | nil => simp at hx
      | cons a rest =>
        rw [if_neg (by simp), heq] at hx
        simp at hx
    · exact ⟨v, by rw [hsplit]; simp, hlt⟩

/-- Witness for C9: a non-empty list whose single variant has zero width is
rejected with no result. -/
theorem max_size_zero_area_witness : max_size [Variant.mk 0 5 "u" "s"] = none :=
  (max_size_zero_area [Variant.mk 0 5 "u" "s"]).1 (by decide)

/-- Lookup in an insertion-ordered association list (the model of a Python
dict): the value at the first matching key. -/
def alookup {α β : Type} [DecidableEq α] : List (α × β) → α → Option β
  | [], _ => none
  | (k', v') :: rest, k => if k' = k then some v' else alookup rest k

/-- Python's `dict.get(k, dflt)`. -/
def aget {α β : Type} [DecidableEq α] (d : List (α × β)) (k : α) (dflt : β) : β :=
  (alookup d k).getD dflt

/-- Python's `dict[k] = v`: update in place when the key exists (keeping its
position), otherwise append the new key at the end. -/
def aset {α β : Type} [DecidableEq α] : List (α × β) → α → β → List (α × β)
  | [], k, v => [(k, v)]
  | (k', v') :: rest, k, v =>
    if k' = k then (k, v) :: rest else (k', v') :: aset rest k v

/-- The key list of the modelled dict, in insertion order. -/
def akeys {α β : Type} (d : List (α × β)) : List α := d.map Prod.fst

theorem alookup_aset_self {α β : Type} [DecidableEq α] (d : List (α × β)) (k : α) (v : β) :
    alookup (aset d k v) k = some v := by
  induction d with
  | nil => simp [aset, alookup]
  | cons e rest ih =>
    obtain ⟨k', v'⟩ := e
    by_cases h : k' = k
    · rw [aset, if_pos h, alookup, if_pos rfl]
    · rw [aset, if_neg h, alookup, if_neg h, ih]

theorem alookup_aset_ne {α β : Type} [DecidableEq α] (d : List (α × β)) (k k' : α) (v : β)
    (h : k' ≠ k) : alookup (aset d k v) k' = alookup d k' := by
  induction d with
  | nil =>
    simp only [aset, alookup]
    rw [if_neg (fun he => h he.symm)]
  | cons e rest ih =>
    obtain ⟨k0, v0⟩ := e
    by_cases h0 : k0 = k
    · rw [aset, if_pos h0, alookup, if_neg (fun he => h he.symm), alookup, h0,
        if_neg (fun he => h he.symm)]
    · by_cases h1 : k0 = k'
      · rw [aset, if_neg h0, alookup, if_pos h1, alookup, if_pos h1]
      · rw [aset, if_neg h0, alookup, if_neg h1, alookup, if_neg h1, ih]

theorem alookup_eq_none {α β : Type} [DecidableEq α] (d : List (α × β)) (k : α) :
    alookup d k = none ↔ k ∉ akeys d := by
  induction d with
  | nil => simp [alookup, akeys]
  | cons e rest ih =>
    obtain ⟨k', v'⟩ := e
    simp only [akeys, List.map_cons, List.mem_cons] at ih ⊢
    by_cases h : k' = k
    · subst h
      simp [alookup]
    · rw [alookup, if_neg h, ih]
      constructor
      · intro hn
        push_neg
        exact ⟨fun he => h he.symm, hn⟩
      · intro hn
        push_neg at hn
        exact hn.2

theorem alookup_isSome_of_mem_akeys {α β : Type} [DecidableEq α] (d : List (α × β)) (k : α)
    (h : k ∈ akeys d) : ∃ v, alookup d k = some v := by
  cases hl : alookup d k with
  | none => exact absurd ((alookup_eq_none d k).mp hl) (by simp [h])
  | some v => exact ⟨v, rfl⟩

theorem mem_of_alookup_eq_some {α β : Type} [DecidableEq α] (d : List (α × β)) (k : α) (v : β)
    (h : alookup d k = some v) : (k, v) ∈ d := by
  induction d with
  | nil => simp [alookup] at h
  | cons e rest ih =>
    obtain ⟨k', v'⟩ := e
    by_cases hk : k' = k
    · rw [alookup, if_pos hk] at h
      simp only [Option.some.injEq] at h
      simp [hk, h]
    · rw [alookup, if_neg hk] at h
      simp [ih h]

theorem alookup_eq_some_of_mem {α β : Type} [DecidableEq α] (d : List (α × β)) (k : α) (v : β)
    (hnd : (akeys d).Nodup) (h : (k, v) ∈ d) : alookup d k = some v := by
  induction d with
  | nil => simp at h
  | cons e rest ih =>
    obtain ⟨k', v'⟩ := e
    rw [akeys, List.map_cons, List.nodup_cons] at hnd
    rcases List.mem_cons.mp h with h | h
    · have hk : k = k' := congrArg Prod.fst h
      have hv : v = v' := congrArg Prod.snd h
      rw [alookup, if_pos hk.symm, hv]
    · have hk : k' ≠ k := by
        intro he
        exact hnd.1 (he ▸ (List.mem_map.mpr ⟨(k, v), h, rfl⟩))
      rw [alookup, if_neg hk]
      exact ih hnd.2 h

theorem akeys_aset {α β : Type} [DecidableEq α] (d : List (α × β)) (k : α) (v : β) :
    akeys (aset d k v) = if k ∈ akeys d then akeys d else akeys d ++ [k] := by
  induction d with
  | nil => simp [aset, akeys]
  | cons e rest ih =>
    obtain ⟨k', v'⟩ := e
    by_cases h : k' = k
    · subst h
      rw [aset, if_pos rfl]
      simp [akeys]
    · rw [aset, if_neg h]
      simp only [akeys, List.map_cons] at ih ⊢
      by_cases hm : k ∈ List.map Prod.fst rest
      · rw [if_pos hm] at ih
        rw [if_pos (by simp only [List.mem_cons]; exact Or.inr hm), ih]
      · rw [if_neg hm] at ih
        rw [if_neg (by
              simp only [List.mem_cons]
              push_neg
              exact ⟨fun he => h he.symm, hm⟩), ih, List.cons_append]

theorem mem_akeys_aset {α β : Type} [DecidableEq α] (d : List (α × β)) (k k' : α) (v : β) :
    k' ∈ akeys (aset d k v) ↔ k' ∈ akeys d ∨ k' = k := by
  rw [akeys_aset]
  by_cases h : k ∈ akeys d
  · rw [if_pos h]
    constructor
    · exact Or.inl
    · rintro (hm | rfl)
      · exact hm
      · exact h
  · rw [if_neg h]
    simp

theorem nodup_akeys_aset {α β : Type} [DecidableEq α] (d : List (α × β)) (k : α) (v : β)
    (h : (akeys d).Nodup) : (akeys (aset d k v)).Nodup := by
  rw [akeys_aset]
  by_cases hm : k ∈ akeys d
  · rw [if_pos hm]; exact h
  · rw [if_neg hm]
    simp [List.nodup_append, h, hm]

theorem aset_eq_of_alookup {α β : Type} [DecidableEq α] (d : List (α × β)) (k : α) (v : β)
    (h : alookup d k = some v) : aset d k v = d := by
  induction d with
  | nil => simp [alookup] at h
  | cons e rest ih =>
    obtain ⟨k', v'⟩ := e
    by_cases hk : k' = k
    · rw [alookup, if_pos hk] at h
      simp only [Option.some.injEq] at h
      rw [aset, if_pos hk, hk, h]
    · rw [alookup, if_neg hk] at h
      rw [aset, if_neg hk, ih h]

theorem aset_append_of_not_mem {α β : Type} [DecidableEq α] (d : List (α × β)) (k : α) (v : β)
    (h : k ∉ akeys d) : aset d k v = d ++ [(k, v)] := by
  induction d with
  | nil => simp [aset]
  | cons e rest ih =>
    obtain ⟨k', v'⟩ := e
    simp only [akeys, List.map_cons, List.mem_cons] at h
    push_neg at h
    have h2 : k ∉ akeys rest := by
      simp only [akeys]
      exact h.2
    rw [aset, if_neg (fun he => h.1 he.symm), ih h2, List.cons_append]

/-- One record appended by `pars_photo` (source lines 115-119): the like
count (stored under `file_name`), the selected variant's size tag, and its
url. -/
structure PhotoRec where
  file_name : Nat
  size : String
  url : String
deriving DecidableEq

/-- The record `pars_photo` builds for a photo, assuming `max_size`
succeeded; the `none` branch is unreachable on the success path. -/
def recOfP (p : Photo) : PhotoRec :=
  match max_size p.sizes with
  | some (u, s) => ⟨p.likes, s, u⟩
  | none => ⟨p.likes, "", ""⟩

/-- The loop of `pars_photo` (source lines 111-120): groups photos by like
count into an insertion-ordered dict; unpacking `max_size`'s `None` raises in
Python, modelled as the whole computation returning `none`. -/
def pars_photo_go (result : List (Nat × List PhotoRec)) : List Photo → Option (List (Nat × List PhotoRec))
  | [] => some result
  | p :: rest =>
    match max_size p.sizes with
    | none => none
    | some (photo_url, photo_size) =>
      pars_photo_go
        (aset result p.likes (aget result p.likes [] ++ [⟨p.likes, photo_size, photo_url⟩])) rest

/-- `pars_photo` (source lines 101-121) on the photo list delivered by the
VK API. -/
def pars_photo (photo_items : List Photo) : Option (List (Nat × List PhotoRec)) :=
  pars_photo_go [] photo_items

theorem pars_photo_go_none (items : List Photo) : ∀ (result : List (Nat × List PhotoRec)),
    (∃ p ∈ items, p.sizes = []) → pars_photo_go result items = none := by
  induction items with
  | nil =>
    intro result h
    obtain ⟨p, hp, _⟩ := h
    simp at hp
  | cons p rest ih =>
    intro result h
    cases hm : max_size p.sizes with
    | none => rw [pars_photo_go, hm]
    | some us =>
      obtain ⟨u, s⟩ := us
      rw [pars_photo_go, hm]
      obtain ⟨q, hq, hqs⟩ := h
      rcases List.mem_cons.mp hq with hq | hq
      · exfalso
        rw [← hq] at hm
        rw [hqs, max_size] at hm
        simp at hm
      · exact ih _ ⟨q, hq, hqs⟩

theorem pars_photo_go_aget (items : List Photo) :
    ∀ (result d : List (Nat × List PhotoRec)), pars_photo_go result items = some d →
    ∀ L, aget d L [] = aget result L [] ++ ((items.filter (fun p => p.likes = L)).map recOfP) := by
  induction items with
  | nil =>
    intro result d h L
    rw [pars_photo_go] at h
    simp only [Option.some.injEq] at h
    rw [← h]
    simp
  | cons p rest ih =>
    intro result d h L
    cases hm : max_size p.sizes with
    | none =>
      rw [pars_photo_go, hm] at h
      simp at h
    | some us =>
      obtain ⟨u, s⟩ := us
      rw [pars_photo_go, hm] at h
      have hrec : (⟨p.likes, s, u⟩ : PhotoRec) = recOfP p := by
        rw [recOfP, hm]
      by_cases hL : p.likes = L
      · have := ih _ d h L
        rw [this]
        rw [aget, hL, alookup_aset_self]
        simp only [Option.getD_some]
        rw [List.filter_cons_of_pos (by simp [hL]), List.map_cons, ← hrec, hL]
        simp [aget]
      · have := ih _ d h L
        rw [this]
        rw [aget, alookup_aset_ne _ _ _ _ (fun he => hL he.symm)]
        rw [List.filter_cons_of_neg (by simp [hL])]
        rfl

theorem pars_photo_go_keys (items : List Photo) :
    ∀ (result d : List (Nat × List PhotoRec)), pars_photo_go result items = some d →
    ∀ L, L ∈ akeys d ↔ L ∈ akeys result ∨ ∃ p ∈ items, p.likes = L := by
  induction items with
  | nil =>
    intro result d h L
    rw [pars_photo_go] at h
    simp only [Option.some.injEq] at h
    rw [← h]
    simp
  | cons p rest ih =>
    intro result d h L
    cases hm : max_size p.sizes with
    | none =>
      rw [pars_photo_go, hm] at h
      simp at h
    | some us =>
      obtain ⟨u, s⟩ := us
      rw [pars_photo_go, hm] at h
      rw [ih _ d h L, mem_akeys_aset]
      constructor
      · rintro ((hm1 | rfl) | ⟨q, hq, hqL⟩)
        · exact Or.inl hm1
        · exact Or.inr ⟨p, by simp, rfl⟩
        · exact Or.inr ⟨q, by simp [hq], hqL⟩
      · rintro (hm1 | ⟨q, hq, hqL⟩)
        · exact Or.inl (Or.inl hm1)
        · rcases List.mem_cons.mp hq with hq | hq
          · exact Or.inl (Or.inr (by rw [hq] at hqL; exact hqL.symm))
          · exact Or.inr ⟨q, hq, hqL⟩

theorem pars_photo_go_nodup (items : List Photo) :
    ∀ (result d : List (Nat × List PhotoRec)), pars_photo_go result items = some d →
    (akeys result).Nodup → (akeys d).Nodup := by
  induction items with
  | nil =>
    intro result d h hnd
    rw [pars_photo_go] at h
    simp only [Option.some.injEq] at h
    rw [← h]
    exact hnd
  | cons p rest ih =>
    intro result d h hnd
    cases hm : max_size p.sizes with
    | none =>
      rw [pars_photo_go, hm] at h
      simp at h
    | some us =>
      obtain ⟨u, s⟩ := us
      rw [pars_photo_go, hm] at h
      exact ih _ d h (nodup_akeys_aset _ _ _ hnd)

/-- Total size of all groups in the dict. -/
def sumLens : List (Nat × List PhotoRec) → Nat
  | [] => 0
  | (_, g) :: rest => g.length + sumLens rest

theorem sumLens_aset_snoc (d : List (Nat × List PhotoRec)) (k : Nat) (r : PhotoRec) :
    sumLens (aset d k (aget d k [] ++ [r])) = sumLens d + 1 := by
  induction d with
  | nil => simp [aset, aget, alookup, sumLens]
  | cons e rest ih =>
    obtain ⟨k', g'⟩ := e
    by_cases h : k' = k
    · have haget : aget ((k', g') :: rest) k [] = g' := by
        simp [aget, alookup, h]
      rw [haget, aset, if_pos h]
      simp only [sumLens, List.length_append, List.length_singleton]
      omega
    · have haget : aget ((k', g') :: rest) k [] = aget rest k [] := by
        simp [aget, alookup, h]
      rw [haget, aset, if_neg h]
      simp only [sumLens]
      rw [ih]
      omega

theorem pars_photo_go_sumLens (items : List Photo) :
    ∀ (result d : List (Nat × List PhotoRec)), pars_photo_go result items = some d →
    sumLens d = sumLens result + items.length := by
  induction items with
  | nil =>
    intro result d h
    rw [pars_photo_go] at h
    simp only [Option.some.injEq] at h
    rw [← h]
    simp
  | cons p rest ih =>
    intro result d h
    cases hm : max_size p.sizes with
    | none =>
      rw [pars_photo_go, hm] at h
      simp at h
    | some us =>
      obtain ⟨u, s⟩ := us
      rw [pars_photo_go, hm] at h
      rw [ih _ d h, sumLens_aset_snoc]
      simp only [List.length_cons]
      omega

/-- File name for a like-count group with exactly one member
(`f'{element}.jpg'`, source line 137). -/
def singleName (L : Nat) : String := natName L ++ ".jpg"

/-- File name written for every member of a group with more than one member
(`f'{element} {key[file_name]}.jpg'` with `key[file_name] = element`,
source line 139). -/
def pairName (L : Nat) : String := natName L ++ " " ++ natName L ++ ".jpg"

theorem append_space_inj (l1 : List Char) : ∀ (l2 r1 r2 : List Char), ' ' ∉ l1 → ' ' ∉ l2 →
    l1 ++ ' ' :: r1 = l2 ++ ' ' :: r2 → l1 = l2 ∧ r1 = r2 := by
  induction l1 with
  | nil =>
    intro l2 r1 r2 _ h2 h
    cases l2 with
    | nil =>
      simp only [List.nil_append, List.cons.injEq] at h
      exact ⟨rfl, h.2⟩
    | cons c t =>
      simp only [List.nil_append, List.cons_append, List.cons.injEq] at h
      exact absurd (h.1 ▸ List.mem_cons_self c t) h2
  | cons a t ih =>
    intro l2 r1 r2 h1 h2 h
    cases l2 with
    | nil =>
      simp only [List.cons_append, List.nil_append, List.cons.injEq] at h
      exact absurd (h.1 ▸ List.mem_cons_self a t) h1
    | cons c t2 =>
      simp only [List.cons_append, List.cons.injEq] at h
      have := ih t2 r1 r2 (fun hm => h1 (List.mem_cons_of_mem a hm))
        (fun hm => h2 (List.mem_cons_of_mem c hm)) h.2
      exact ⟨by rw [h.1, this.1], this.2⟩

theorem singleName_inj (a b : Nat) (h : singleName a = singleName b) : a = b := by
  have hd : (singleName a).data = (singleName b).data := by rw [h]
  rw [singleName, singleName] at hd
  have hd' : (natName a).data ++ ".jpg".data = (natName b).data ++ ".jpg".data := hd
  exact natName_inj (String.ext (List.append_cancel_right hd'))

theorem pairName_data (L : Nat) :
    (pairName L).data = (natName L).data ++ ' ' :: ((natName L).data ++ ".jpg".data) := by
  rw [pairName]
  show (natName L).data ++ " ".data ++ (natName L).data ++ ".jpg".data = _
  simp

theorem pairName_inj (a b : Nat) (h : pairName a = pairName b) : a = b := by
  have hd : (pairName a).data = (pairName b).data := by rw [h]
  rw [pairName_data, pairName_data] at hd
  have := append_space_inj (natName a).data (natName b).data _ _
    (space_not_mem_natName a) (space_not_mem_natName b) hd
  exact natName_inj (String.ext this.1)

theorem singleName_ne_pairName (a b : Nat) : singleName a ≠ pairName b := by
  intro h
  have hd : (singleName a).data = (pairName b).data := by rw [h]
  rw [singleName, pairName_data] at hd
  have hd' : (natName a).data ++ ".jpg".data
      = (natName b).data ++ ' ' :: ((natName b).data ++ ".jpg".data) := hd
  have hmem : ' ' ∈ (natName a).data ++ ".jpg".data := by
    rw [hd']
    simp
  rcases List.mem_append.mp hmem with hm | hm
  · exact space_not_mem_natName a hm
  · simp at hm

/-- One entry of `json_list` (source line 140): the assigned file name and
the chosen size tag. -/
structure JEntry where
  file_name : String
  size : String
deriving DecidableEq

/-- `photo_dict[element][0]['url']` (source line 141): the url of the first
record of the group; groups produced by `pars_photo` are never empty. -/
def headUrl (g : List PhotoRec) : String :=
  match g with
  | [] => ""
  | r :: _ => r.url

/-- The file name computed at source lines 136-139 for record `key` of the
group `g` keyed by like count `element`. -/
def entryName (element : Nat) (g : List PhotoRec) (key : PhotoRec) : String :=
  if g.length = 1 then natName element ++ ".jpg"
  else natName element ++ " " ++ natName key.file_name ++ ".jpg"

/-- The inner loop of `extract_photo` (source lines 135-141) over the
members of one group: appends to `json_list` and writes
`json_dict[file_name] = photo_dict[element][0]['url']`. -/
def extract_inner (element : Nat) (g : List PhotoRec) :
    List PhotoRec → List JEntry × List (String × String) → List JEntry × List (String × String)
  | [], acc => acc
  | key :: rest, (json_list, json_dict) =>
    extract_inner element g rest
      (json_list ++ [⟨entryName element g key, key.size⟩],
       aset json_dict (entryName element g key) (headUrl g))

/-- The outer loop of `extract_photo` (source line 134) over the groups of
`photo_dict`, in insertion order. -/
def extract_photo_go : List (Nat × List PhotoRec) → List JEntry × List (String × String) →
    List JEntry × List (String × String)
  | [], acc => acc
  | (element, g) :: rest, acc => extract_photo_go rest (extract_inner element g g acc)

/-- `extract_photo` (source lines 123-142): runs `pars_photo` and folds the
groups into `json_list` and the export mapping `json_dict`. -/
def extract_photo (photo_items : List Photo) :
    Option (List JEntry × List (String × String)) :=
  match pars_photo photo_items with
  | none => none
  | some photo_dict => some (extract_photo_go photo_dict ([], []))

/-- The file name every member of group `(L, g)` is given. -/
def wname (L : Nat) (g : List PhotoRec) : String :=
  if g.length = 1 then singleName L else pairName L

theorem wname_inj_of_ne (L L' : Nat) (g g' : List PhotoRec) (h : L ≠ L') :
    wname L g ≠ wname L' g' := by
  rw [wname, wname]
  by_cases h1 : g.length = 1 <;> by_cases h2 : g'.length = 1
  · rw [if_pos h1, if_pos h2]
    exact fun he => h (singleName_inj L L' he)
  · rw [if_pos h1, if_neg h2]
    exact singleName_ne_pairName L L'
  · rw [if_neg h1, if_pos h2]
    exact fun he => (singleName_ne_pairName L' L) he.symm
  · rw [if_neg h1, if_neg h2]
    exact fun he => h (pairName_inj L L' he)

/-- The `json_list` contribution of the groups, in order. -/
def jlOf : List (Nat × List PhotoRec) → List JEntry
  | [] => []
  | (L, g) :: rest => g.map (fun key => ⟨wname L g, key.size⟩) ++ jlOf rest

/-- The `json_dict` contribution of the groups, in order: one entry per
group, holding the first member's url. -/
def jdOf : List (Nat × List PhotoRec) → List (String × String)
  | [] => []
  | (L, g) :: rest => (wname L g, headUrl g) :: jdOf rest

theorem entryName_eq_wname (L : Nat) (g : List PhotoRec) (key : PhotoRec)
    (h : key.file_name = L) : entryName L g key = wname L g := by
  rw [entryName, wname, singleName, pairName, h]

theorem aset_aset_same {α β : Type} [DecidableEq α] (d : List (α × β)) (k : α) (v : β) :
    aset (aset d k v) k v = aset d k v :=
  aset_eq_of_alookup _ _ _ (alookup_aset_self d k v)

theorem extract_inner_eq (L : Nat) (g : List PhotoRec) :
    ∀ (rest : List PhotoRec) (jl : List JEntry) (jd : List (String × String)),
    (∀ r ∈ rest, r.file_name = L) →
    extract_inner L g rest (jl, jd) =
      (jl ++ rest.map (fun key => ⟨wname L g, key.size⟩),
       if rest.isEmpty then jd else aset jd (wname L g) (headUrl g)) := by
  intro rest
  induction rest with
  | nil =>
    intro jl jd _
    simp [extract_inner]
  | cons key rest' ih =>
    intro jl jd hmem
    have hkey : entryName L g key = wname L g :=
      entryName_eq_wname L g key (hmem key (by simp))
    rw [extract_inner, hkey]
    rw [ih _ _ (fun r hr => hmem r (by simp [hr]))]
    cases rest' with
    | nil => simp
    | cons key2 rest2 =>
      simp only [List.isEmpty_cons, if_neg Bool.false_ne_true, List.map_cons]
      rw [aset_aset_same]
      simp

theorem extract_photo_go_eq : ∀ (d : List (Nat × List PhotoRec)) (jl0 : List JEntry)
    (jd0 : List (String × String)),
    (∀ L g, (L, g) ∈ d → ∀ r ∈ g, r.file_name = L) →
    (∀ L g, (L, g) ∈ d → g ≠ []) →
    (akeys (jdOf d)).Nodup →
    (∀ n, n ∈ akeys (jdOf d) → n ∉ akeys jd0) →
    extract_photo_go d (jl0, jd0) = (jl0 ++ jlOf d, jd0 ++ jdOf d) := by
  intro d
  induction d with
  | nil =>
    intro jl0 jd0 _ _ _ _
    simp [extract_photo_go, jlOf, jdOf]
  | cons e rest ih =>
    intro jl0 jd0 hmem hne hnd hfresh
    obtain ⟨L, g⟩ := e
    have hgne : g ≠ [] := hne L g (by simp)
    have hkeys : akeys (jdOf ((L, g) :: rest)) = wname L g :: akeys (jdOf rest) := by
      simp [jdOf, akeys]
    rw [hkeys] at hnd hfresh
    rw [extract_photo_go,
      extract_inner_eq L g g jl0 jd0 (fun r hr => hmem L g (by simp) r hr)]
    rw [if_neg (by simp [List.isEmpty_iff, hgne])]
    have hw0 : wname L g ∉ akeys jd0 := hfresh (wname L g) (by simp)
    rw [aset_append_of_not_mem _ _ _ hw0]
    rw [ih _ _ (fun L2 g2 hm => hmem L2 g2 (by simp [hm]))
      (fun L2 g2 hm => hne L2 g2 (by simp [hm]))
      (List.nodup_cons.mp hnd).2
      (by
        intro n hn
        have hn0 : n ∉ akeys jd0 := hfresh n (by simp [hn])
        have hnw : n ≠ wname L g := by
          intro he
          exact (List.nodup_cons.mp hnd).1 (he ▸ hn)
        rw [akeys, List.map_append]
        simp only [List.mem_append]
        push_neg
        exact ⟨hn0, by simp [akeys, hnw]⟩)]
    rw [jlOf, jdOf]
    simp [List.append_assoc]

theorem recOfP_file_name (p : Photo) : (recOfP p).file_name = p.likes := by
  rw [recOfP]
  cases h : max_size p.sizes with
  | none => rfl
  | some us =>
    obtain ⟨u, s⟩ := us
    rfl

theorem pars_aget (items : List Photo) (d : List (Nat × List PhotoRec))
    (h : pars_photo items = some d) (L : Nat) :
    aget d L [] = (items.filter (fun p => p.likes = L)).map recOfP := by
  have := pars_photo_go_aget items [] d h L
  simpa [aget, alookup] using this

theorem pars_keys (items : List Photo) (d : List (Nat × List PhotoRec))
    (h : pars_photo items = some d) (L : Nat) :
    L ∈ akeys d ↔ ∃ p ∈ items, p.likes = L := by
  have := pars_photo_go_keys items [] d h L
  simpa [akeys] using this

theorem pars_nodup (items : List Photo) (d : List (Nat × List PhotoRec))
    (h : pars_photo items = some d) : (akeys d).Nodup :=
  pars_photo_go_nodup items [] d h (by simp [akeys])

theorem pars_mem_group (items : List Photo) (d : List (Nat × List PhotoRec))
    (h : pars_photo items = some d) (L : Nat) (g : List PhotoRec) (hm : (L, g) ∈ d) :
    g = (items.filter (fun p => p.likes = L)).map recOfP := by
  have hl : alookup d L = some g := alookup_eq_some_of_mem d L g (pars_nodup items d h) hm
  have : aget d L [] = g := by rw [aget, hl]; rfl
  rw [← this, pars_aget items d h]

theorem pars_group_ne (items : List Photo) (d : List (Nat × List PhotoRec))
    (h : pars_photo items = some d) (L : Nat) (g : List PhotoRec) (hm : (L, g) ∈ d) :
    g ≠ [] := by
  have hkey : L ∈ akeys d := List.mem_map.mpr ⟨(L, g), hm, rfl⟩
  obtain ⟨p, hp, hpL⟩ := (pars_keys items d h L).mp hkey
  rw [pars_mem_group items d h L g hm]
  intro he
  have : p ∈ items.filter (fun p => p.likes = L) := List.mem_filter.mpr ⟨hp, by simp [hpL]⟩
  rw [List.map_eq_nil_iff] at he
  rw [he] at this
  simp at this

theorem pars_file_name (items : List Photo) (d : List (Nat × List PhotoRec))
    (h : pars_photo items = some d) (L : Nat) (g : List PhotoRec) (hm : (L, g) ∈ d) :
    ∀ r ∈ g, r.file_name = L := by
  intro r hr
  rw [pars_mem_group items d h L g hm] at hr
  obtain ⟨p, hp, hpr⟩ := List.mem_map.mp hr
  have hpL : p.likes = L := by simpa using (List.mem_filter.mp hp).2
  rw [← hpr, recOfP_file_name, hpL]

theorem akeys_jdOf (d : List (Nat × List PhotoRec)) :
    akeys (jdOf d) = d.map (fun e => wname e.1 e.2) := by
  induction d with
  | nil => simp [jdOf, akeys]
  | cons e rest ih =>
    obtain ⟨L, g⟩ := e
    simp [jdOf, akeys] at ih ⊢
    exact ih

theorem nodup_wnames (d : List (Nat × List PhotoRec)) (hnd : (akeys d).Nodup) :
    (d.map (fun e => wname e.1 e.2)).Nodup := by
  induction d with
  | nil => simp
  | cons e rest ih =>
    obtain ⟨L, g⟩ := e
    simp only [akeys, List.map_cons, List.nodup_cons] at hnd ⊢
    refine ⟨?_, ih hnd.2⟩
    intro hmem
    obtain ⟨e2, he2, hw⟩ := List.mem_map.mp hmem
    have hne : e2.1 ≠ L := by
      intro he
      exact hnd.1 (List.mem_map.mpr ⟨e2, he2, he⟩)
    exact wname_inj_of_ne e2.1 L e2.2 g hne hw

theorem extract_photo_some (items : List Photo) (d : List (Nat × List PhotoRec))
    (h : pars_photo items = some d) :
    extract_photo items = some (jlOf d, jdOf d) := by
  rw [extract_photo, h]
  show some (extract_photo_go d ([], [])) = some (jlOf d, jdOf d)
  rw [extract_photo_go_eq d [] []
    (fun L g hm => pars_file_name items d h L g hm)
    (fun L g hm => pars_group_ne items d h L g hm)
    (by rw [akeys_jdOf]; exact nodup_wnames d (pars_nodup items d h))
    (by intro n _ hn; simp [akeys] at hn)]
  simp

theorem jlOf_length (d : List (Nat × List PhotoRec)) : (jlOf d).length = sumLens d := by
  induction d with
  | nil => simp [jlOf, sumLens]
  | cons e rest ih =>
    obtain ⟨L, g⟩ := e
    simp [jlOf, sumLens, ih]

theorem jdOf_length (d : List (Nat × List PhotoRec)) : (jdOf d).length = d.length := by
  induction d with
  | nil => simp [jdOf]
  | cons e rest ih =>
    obtain ⟨L, g⟩ := e
    simp [jdOf, ih]

theorem jdOf_eq_map (d : List (Nat × List PhotoRec)) :
    jdOf d = d.map (fun e => (wname e.1 e.2, headUrl e.2)) := by
  induction d with
  | nil => simp [jdOf]
  | cons e rest ih =>
    obtain ⟨L, g⟩ := e
    simp [jdOf, ih]

theorem mem_jlOf_name (d : List (Nat × List PhotoRec)) (e : JEntry) (he : e ∈ jlOf d) :
    e.file_name ∈ d.map (fun pr => wname pr.1 pr.2) := by
  induction d with
  | nil => simp [jlOf] at he
  | cons pr rest ih =>
    obtain ⟨L, g⟩ := pr
    rw [jlOf] at he
    rcases List.mem_append.mp he with he | he
    · obtain ⟨key, _, hkey⟩ := List.mem_map.mp he
      rw [← hkey]
      simp
    · simp [ih he]

theorem jlOf_filter (d : List (Nat × List PhotoRec))
    (hnd : (d.map (fun e => wname e.1 e.2)).Nodup) (L : Nat) (g : List PhotoRec)
    (hm : (L, g) ∈ d) :
    (jlOf d).filter (fun e => e.file_name = wname L g)
      = g.map (fun key => ⟨wname L g, key.size⟩) := by
  induction d with
  | nil => simp at hm
  | cons pr rest ih =>
    obtain ⟨L', g'⟩ := pr
    simp only [List.map_cons, List.nodup_cons] at hnd
    rw [jlOf, List.filter_append]
    rcases List.mem_cons.mp hm with he | hmem
    · have hL : L = L' := congrArg Prod.fst he
      have hg : g = g' := congrArg Prod.snd he
      subst hL
      subst hg
      have h1 : (g.map (fun key => (⟨wname L g, key.size⟩ : JEntry))).filter
          (fun e => e.file_name = wname L g) = g.map (fun key => ⟨wname L g, key.size⟩) := by
        rw [List.filter_eq_self]
        intro e he
        obtain ⟨key, _, hkey⟩ := List.mem_map.mp he
        rw [← hkey]
        simp
      have h2 : (jlOf rest).filter (fun e => e.file_name = wname L g) = [] := by
        rw [List.filter_eq_nil_iff]
        intro e he
        have := mem_jlOf_name rest e he
        simp only [decide_eq_true_eq]
        intro hname
        exact hnd.1 (hname ▸ this)
      rw [h1, h2, List.append_nil]
    · have hwne : wname L' g' ≠ wname L g := by
        intro he
        exact hnd.1 (he ▸ List.mem_map.mpr ⟨(L, g), hmem, rfl⟩)
      have h1 : (g'.map (fun key => (⟨wname L' g', key.size⟩ : JEntry))).filter
          (fun e => e.file_name = wname L g) = [] := by
        rw [List.filter_eq_nil_iff]
        intro e he
        obtain ⟨key, _, hkey⟩ := List.mem_map.mp he
        rw [← hkey]
        simp only [decide_eq_true_eq]
        exact hwne
      rw [h1, List.nil_append]
      exact ih hnd.2 hmem

theorem countP_one_filter {α : Type} (pr : α → Bool) (l : List α) (a : α) (ha : a ∈ l)
    (hpa : pr a = true) (hc : l.countP pr = 1) : l.filter pr = [a] := by
  have hlen : (l.filter pr).length = 1 := by
    rw [← List.countP_eq_length_filter]
    exact hc
  obtain ⟨b, hb⟩ := List.length_eq_one.mp hlen
  have hab : a ∈ l.filter pr := List.mem_filter.mpr ⟨ha, hpa⟩
  rw [hb] at hab
  rw [hb, List.mem_singleton.mp hab]

theorem find?_eq_head_filter {α : Type} (pr : α → Bool) (l : List α) :
    l.find? pr = (l.filter pr).head? := by
  induction l with
  | nil => simp
  | cons a rest ih =>
    by_cases h : pr a = true
    · rw [List.find?_cons_of_pos _ h, List.filter_cons_of_pos h, List.head?_cons]
    · rw [List.find?_cons_of_neg _ h, List.filter_cons_of_neg h, ih]

theorem countP_le_one_of_nodup_map {α β : Type} [DecidableEq β] (f : α → β) (l : List α)
    (hnd : (l.map f).Nodup) (b : β) : l.countP (fun x => f x = b) ≤ 1 := by
  induction l with
  | nil => simp
  | cons a rest ih =>
    simp only [List.map_cons, List.nodup_cons] at hnd
    by_cases h : f a = b
    · rw [List.countP_cons_of_pos _ _ (by simp [h])]
      have : rest.countP (fun x => f x = b) = 0 := by
        rw [List.countP_eq_zero]
        intro x hx
        simp only [decide_eq_true_eq]
        intro hfx
        exact hnd.1 (by rw [h, ← hfx]; exact List.mem_map.mpr ⟨x, hx, rfl⟩)
      omega
    · rw [List.countP_cons_of_neg _ _ (by simp [h])]
      exact ih hnd.2

theorem group_exists (items : List Photo) (d : List (Nat × List PhotoRec))
    (h : pars_photo items = some d) (L : Nat) (hL : ∃ p ∈ items, p.likes = L) :
    (L, (items.filter (fun p => p.likes = L)).map recOfP) ∈ d := by
  have hkey : L ∈ akeys d := (pars_keys items d h L).mpr hL
  obtain ⟨g, hg⟩ := alookup_isSome_of_mem_akeys d L hkey
  have hmem : (L, g) ∈ d := mem_of_alookup_eq_some d L g hg
  have : aget d L [] = g := by rw [aget, hg]; rfl
  rw [pars_aget items d h] at this
  rw [this]
  exact hmem

theorem group_length (items : List Photo) (L : Nat) :
    ((items.filter (fun p => p.likes = L)).map recOfP).length
      = items.countP (fun p => p.likes = L) := by
  rw [List.length_map, ← List.countP_eq_length_filter]

theorem extract_photo_inv (items : List Photo) (jl : List JEntry)
    (jd : List (String × String)) (h : extract_photo items = some (jl, jd)) :
    ∃ d, pars_photo items = some d ∧ jl = jlOf d ∧ jd = jdOf d := by
  cases hp : pars_photo items with
  | none =>
    rw [extract_photo, hp] at h
    simp at h
  | some d =>
    have he := extract_photo_some items d hp
    rw [h] at he
    simp only [Option.some.injEq, Prod.mk.injEq] at he
    exact ⟨d, rfl, he.1, he.2⟩

theorem jlOf_names_of_singletons (d : List (Nat × List PhotoRec))
    (hone : ∀ e ∈ d, (e.2 : List PhotoRec).length = 1) :
    (jlOf d).map (fun e => e.file_name) = d.map (fun e => wname e.1 e.2) := by
  induction d with
  | nil => simp [jlOf]
  | cons e rest ih =>
    obtain ⟨L, g⟩ := e
    obtain ⟨r, hr⟩ := List.length_eq_one.mp (hone (L, g) (by simp))
    subst hr
    rw [jlOf, List.map_append]
    simp only [List.map_cons, List.map_nil, List.map_singleton]
    rw [ih (fun e he => hone e (by simp [he]))]
    rfl

/-- C2 (amended): if some photo has an empty variant list, `pars_photo`
unpacks `max_size`'s `None` and the whole run halts with no result — no
remaining photo is processed and no export mapping is produced (the source
raises a `TypeError` there; the spec's skip-and-continue behaviour is not
implemented). -/
theorem pars_photo_empty_sizes_halts (items : List Photo)
    (h : ∃ p ∈ items, p.sizes = []) :
    pars_photo items = none ∧ extract_photo items = none := by
  have h1 : pars_photo items = none := pars_photo_go_none items [] h
  refine ⟨h1, ?_⟩
  rw [extract_photo, h1]

/-- C2 counterexample: with a first photo that has no size variants and a
well-formed second photo, export-set construction yields no result at all —
it does not skip the offending photo and complete for the remaining one. -/
theorem extract_photo_empty_sizes_cx :
    pars_photo [Photo.mk 5 [], Photo.mk 3 [Variant.mk 10 20 "a" "s"]] = none ∧
    extract_photo [Photo.mk 5 [], Photo.mk 3 [Variant.mk 10 20 "a" "s"]] = none := by
  decide

/-- Witness for the amended C2 at a concrete input. -/
theorem pars_photo_empty_sizes_halts_witness :
    pars_photo [Photo.mk 7 [], Photo.mk 3 [Variant.mk 10 20 "a" "s"]] = none ∧
    extract_photo [Photo.mk 7 [], Photo.mk 3 [Variant.mk 10 20 "a" "s"]] = none :=
  pars_photo_empty_sizes_halts _ ⟨Photo.mk 7 [], by decide, rfl⟩

/-- C4: name assignment produces exactly one `json_list` entry per input
photo; a photo whose like count is unique yields exactly the one entry named
`"<likes>.jpg"`, a like count appearing k>1 times yields k entries named
`"<likes> <likes>.jpg"`, and with all-distinct like counts all names are
distinct. -/
theorem extract_photo_names (items : List Photo) (jl : List JEntry)
    (jd : List (String × String)) (h : extract_photo items = some (jl, jd)) :
    jl.length = items.length ∧
    (∀ p ∈ items, items.countP (fun q => q.likes = p.likes) = 1 →
      jl.filter (fun e => e.file_name = natName p.likes ++ ".jpg")
        = [⟨natName p.likes ++ ".jpg", (recOfP p).size⟩]) ∧
    (∀ L, 1 < items.countP (fun p => p.likes = L) →
      (jl.filter (fun e => e.file_name = natName L ++ " " ++ natName L ++ ".jpg")).length
        = items.countP (fun p => p.likes = L)) ∧
    ((items.map (fun p => p.likes)).Nodup → (jl.map (fun e => e.file_name)).Nodup) := by
  obtain ⟨d, hp, hjl, hjd⟩ := extract_photo_inv items jl jd h
  subst hjl
  subst hjd
  have hnd : (akeys d).Nodup := pars_nodup items d hp
  have hwnd : (d.map (fun e => wname e.1 e.2)).Nodup := nodup_wnames d hnd
  refine ⟨?_, ?_, ?_, ?_⟩
  · rw [jlOf_length, pars_photo_go_sumLens items [] d hp]
    simp [sumLens]
  · intro p hpmem hc
    have hgmem := group_exists items d hp p.likes ⟨p, hpmem, rfl⟩
    have hfil : items.filter (fun q => q.likes = p.likes) = [p] :=
      countP_one_filter _ items p hpmem (by simp) hc
    have hflt := jlOf_filter d hwnd p.likes _ hgmem
    rw [hfil] at hflt hgmem
    have hw : wname p.likes ([p].map recOfP) = natName p.likes ++ ".jpg" := by
      rw [wname, if_pos (by simp), singleName]
    rw [hw] at hflt
    rw [hflt]
    simp
  · intro L hc
    have hpos : 0 < items.countP (fun p => p.likes = L) := by omega
    obtain ⟨p, hpmem, hpL⟩ := List.countP_pos_iff.mp hpos
    have hgmem := group_exists items d hp L ⟨p, hpmem, by simpa using hpL⟩
    have hflt := jlOf_filter d hwnd L _ hgmem
    have hglen : ((items.filter (fun p => p.likes = L)).map recOfP).length
        = items.countP (fun p => p.likes = L) := group_length items L
    have hw : wname L ((items.filter (fun p => p.likes = L)).map recOfP)
        = natName L ++ " " ++ natName L ++ ".jpg" := by
      rw [wname, if_neg (by omega), pairName]
    rw [hw] at hflt
    rw [hflt, List.length_map, ← group_length items L, List.length_map]
  · intro hlnd
    have hone : ∀ e ∈ d, (e.2 : List PhotoRec).length = 1 := by
      intro e he
      obtain ⟨L, g⟩ := e
      have hg := pars_mem_group items d hp L g he
      have hkey : L ∈ akeys d := List.mem_map.mpr ⟨(L, g), he, rfl⟩
      obtain ⟨p, hpmem, hpL⟩ := (pars_keys items d hp L).mp hkey
      have hge : 1 ≤ items.countP (fun p => p.likes = L) :=
        List.countP_pos_iff.mpr ⟨p, hpmem, by simp [hpL]⟩
      have hle : items.countP (fun p => p.likes = L) ≤ 1 :=
        countP_le_one_of_nodup_map (fun p => p.likes) items hlnd L
      have : g.length = items.countP (fun p => p.likes = L) := by
        rw [hg]
        exact group_length items L
      simp only []
      omega
    rw [jlOf_names_of_singletons d hone]
    exact hwnd

/-- Witness for C4: two photos with 5 likes and one with 7 produce three
entries for three photos. -/
theorem extract_photo_names_witness :
    ([⟨"5 5.jpg", "x"⟩, ⟨"5 5.jpg", "m"⟩, ⟨"7.jpg", "s"⟩] : List JEntry).length
      = ([Photo.mk 5 [Variant.mk 100 100 "u1" "x"], Photo.mk 5 [Variant.mk 50 50 "u2" "m"],
          Photo.mk 7 [Variant.mk 10 10 "u3" "s"]] : List Photo).length :=
  (extract_photo_names
    [Photo.mk 5 [Variant.mk 100 100 "u1" "x"], Photo.mk 5 [Variant.mk 50 50 "u2" "m"],
      Photo.mk 7 [Variant.mk 10 10 "u3" "s"]]
    [⟨"5 5.jpg", "x"⟩, ⟨"5 5.jpg", "m"⟩, ⟨"7.jpg", "s"⟩]
    [("5 5.jpg", "u1"), ("7.jpg", "u3")] (by decide)).1

/-- The file name under which a like count `L` appears in the export
mapping: the singleton pattern when `L` occurs once in the input, the
doubled pattern otherwise. -/
def specName (items : List Photo) (L : Nat) : String :=
  if items.countP (fun p => p.likes = L) = 1 then natName L ++ ".jpg"
  else natName L ++ " " ++ natName L ++ ".jpg"

/-- C8: the export mapping has exactly one entry per distinct like count of
the input (so groups with more than one photo contribute a single key), and
its keys are exactly the names of the like counts that occur. -/
theorem extract_photo_mapping_size (items : List Photo) (jl : List JEntry)
    (jd : List (String × String)) (h : extract_photo items = some (jl, jd)) :
    jd.length = ((items.map (fun p => p.likes)).dedup).length ∧
    (∀ n, n ∈ akeys jd ↔ ∃ L, (∃ p ∈ items, p.likes = L) ∧ n = specName items L) := by
  obtain ⟨d, hp, hjl, hjd⟩ := extract_photo_inv items jl jd h
  subst hjl
  subst hjd
  have hnd : (akeys d).Nodup := pars_nodup items d hp
  have hwname : ∀ L g, (L, g) ∈ d → wname L g = specName items L := by
    intro L g hm
    have hg := pars_mem_group items d hp L g hm
    have hglen : g.length = items.countP (fun p => p.likes = L) := by
      rw [hg]
      exact group_length items L
    rw [wname, specName]
    simp only [hglen, singleName, pairName]
  constructor
  · rw [jdOf_length]
    have hto : (akeys d).toFinset = ((items.map (fun p => p.likes)).dedup).toFinset := by
      ext L
      simp only [List.mem_toFinset, List.mem_dedup, List.mem_map]
      rw [pars_keys items d hp L]
    have h1 : (akeys d).toFinset.card = (akeys d).length :=
      List.toFinset_card_of_nodup hnd
    have h2 : ((items.map (fun p => p.likes)).dedup).toFinset.card
        = ((items.map (fun p => p.likes)).dedup).length :=
      List.toFinset_card_of_nodup (List.nodup_dedup _)
    have hklen : (akeys d).length = d.length := by
      rw [akeys, List.length_map]
    rw [← hklen, ← h1, hto, h2]
  · intro n
    rw [akeys_jdOf]
    constructor
    · intro hn
      obtain ⟨e, he, hw⟩ := List.mem_map.mp hn
      obtain ⟨L, g⟩ := e
      have hkey : L ∈ akeys d := List.mem_map.mpr ⟨(L, g), he, rfl⟩
      refine ⟨L, (pars_keys items d hp L).mp hkey, ?_⟩
      rw [← hw]
      simpa using hwname L g he
    · rintro ⟨L, hL, rfl⟩
      have hgmem := group_exists items d hp L hL
      exact List.mem_map.mpr ⟨_, hgmem, hwname _ _ hgmem⟩

/-- Witness for C8: like counts [5, 5, 7] give a two-entry mapping, matching
the two distinct like counts. -/
theorem extract_photo_mapping_size_witness :
    ([("5 5.jpg", "u1"), ("7.jpg", "u3")] : List (String × String)).length
      = ((([Photo.mk 5 [Variant.mk 100 100 "u1" "x"], Photo.mk 5 [Variant.mk 50 50 "u2" "m"],
          Photo.mk 7 [Variant.mk 10 10 "u3" "s"]] : List Photo).map (fun p => p.likes)).dedup).length :=
  (extract_photo_mapping_size
    [Photo.mk 5 [Variant.mk 100 100 "u1" "x"], Photo.mk 5 [Variant.mk 50 50 "u2" "m"],
      Photo.mk 7 [Variant.mk 10 10 "u3" "s"]]
    [⟨"5 5.jpg", "x"⟩, ⟨"5 5.jpg", "m"⟩, ⟨"7.jpg", "s"⟩]
    [("5 5.jpg", "u1"), ("7.jpg", "u3")] (by decide)).1

/-- C1 counterexample: with photos of equal like count 5 and urls "u1" then
"u2", the export mapping's entry for "5 5.jpg" holds "u1" — the FIRST
photo's url, not the last one's "u2" claimed by the spec (every write for
the group stores `photo_dict[element][0]['url']`, source line 141). -/
theorem extract_photo_last_url_cx :
    extract_photo [Photo.mk 5 [Variant.mk 100 100 "u1" "x"], Photo.mk 5 [Variant.mk 50 50 "u2" "m"]]
      = some ([⟨"5 5.jpg", "x"⟩, ⟨"5 5.jpg", "m"⟩], [("5 5.jpg", "u1")]) ∧ "u1" ≠ "u2" := by
  decide

/-- C1 (amended): for a like count L appearing k>1 times, all k photos are
assigned `"L L.jpg"`, and the export mapping's entry for that name holds the
source URL of the FIRST such photo in input order (each collision write
re-stores the group head's url, so last-write-wins degenerates to the first
photo's url). -/
theorem extract_photo_dup_first_url (items : List Photo) (L : Nat) (jl : List JEntry)
    (jd : List (String × String)) (h : extract_photo items = some (jl, jd))
    (hk : 1 < items.countP (fun p => p.likes = L)) :
    (jl.filter (fun e => e.file_name = natName L ++ " " ++ natName L ++ ".jpg")).length
      = items.countP (fun p => p.likes = L) ∧
    ∀ p, items.find? (fun q => q.likes = L) = some p →
      alookup jd (natName L ++ " " ++ natName L ++ ".jpg") = some ((recOfP p).url) := by
  obtain ⟨d, hp, hjl, hjd⟩ := extract_photo_inv items jl jd h
  subst hjl
  subst hjd
  have hnd : (akeys d).Nodup := pars_nodup items d hp
  have hwnd : (d.map (fun e => wname e.1 e.2)).Nodup := nodup_wnames d hnd
  have hpos : 0 < items.countP (fun p => p.likes = L) := by omega
  obtain ⟨p0, hp0mem, hp0L⟩ := List.countP_pos_iff.mp hpos
  have hgmem := group_exists items d hp L ⟨p0, hp0mem, by simpa using hp0L⟩
  have hglen : ((items.filter (fun p => p.likes = L)).map recOfP).length
      = items.countP (fun p => p.likes = L) := group_length items L
  have hw : wname L ((items.filter (fun p => p.likes = L)).map recOfP)
      = natName L ++ " " ++ natName L ++ ".jpg" := by
    rw [wname, if_neg (by omega), pairName]
  constructor
  · have hflt := jlOf_filter d hwnd L _ hgmem
    rw [hw] at hflt
    rw [hflt, List.length_map, ← group_length items L, List.length_map]
  · intro p hfind
    rw [find?_eq_head_filter] at hfind
    obtain ⟨tl, htl⟩ : ∃ tl, items.filter (fun q => q.likes = L) = p :: tl := by
      cases hft : items.filter (fun q => q.likes = L) with
      | nil => rw [hft] at hfind; simp at hfind
      | cons a tl =>
        rw [hft] at hfind
        simp only [List.head?_cons, Option.some.injEq] at hfind
        exact ⟨tl, by rw [hfind]⟩
    have hhead : headUrl ((items.filter (fun p => p.likes = L)).map recOfP)
        = (recOfP p).url := by
      rw [htl, List.map_cons, headUrl]
    have hins : (wname L ((items.filter (fun p => p.likes = L)).map recOfP),
        headUrl ((items.filter (fun p => p.likes = L)).map recOfP)) ∈ jdOf d := by
      rw [jdOf_eq_map]
      exact List.mem_map.mpr ⟨_, hgmem, rfl⟩
    have hlook := alookup_eq_some_of_mem (jdOf d) _ _
      (by rw [akeys_jdOf]; exact hwnd) hins
    rw [hw, hhead] at hlook
    exact hlook

/-- Witness for the amended C1 at the spec's scenario (urls "u1" then "u2"
under like count 5): the mapping entry holds the first photo's url. -/
theorem extract_photo_dup_first_url_witness :
    alookup [("5 5.jpg", "u1")] (natName 5 ++ " " ++ natName 5 ++ ".jpg")
      = some ((recOfP (Photo.mk 5 [Variant.mk 100 100 "u1" "x"])).url) :=
  (extract_photo_dup_first_url
    [Photo.mk 5 [Variant.mk 100 100 "u1" "x"], Photo.mk 5 [Variant.mk 50 50 "u2" "m"]] 5
    [⟨"5 5.jpg", "x"⟩, ⟨"5 5.jpg", "m"⟩] [("5 5.jpg", "u1")]
    (by decide) (by decide)).2
    (Photo.mk 5 [Variant.mk 100 100 "u1" "x"]) (by decide)

/-- The upload/skip partition computed by the loop of `fill_folder` (source
lines 229-239): entries of `dict_files` in iteration order, split on
membership of the file name in the remote folder listing. -/
structure UploadPlan where
  toUpload : List (String × String)
  toSkip : List String
deriving DecidableEq

/-- The decision loop of `fill_folder` (source lines 229-239), keeping the
source's branch order: a key absent from `files_in_folder` is uploaded with
its url, a present key is skipped. -/
def fill_folder_plan : List (String × String) → List String → UploadPlan
  | [], _ => ⟨[], []⟩
  | (key, url) :: rest, files_in_folder =>
    let plan := fill_folder_plan rest files_in_folder
    if key ∉ files_in_folder then ⟨(key, url) :: plan.toUpload, plan.toSkip⟩
    else ⟨plan.toUpload, key :: plan.toSkip⟩

/-- One POST to `{base}/upload` issued by `fill_folder` (source lines
231-232): the target path `f'{folder_name}/{key}'`, the source url, and the
always-true overwrite flag. These are the only requests the loop makes — it
never deletes or renames anything. -/
structure UploadReq where
  path : String
  url : String
  overwrite : Bool
deriving DecidableEq

/-- The trace of upload requests `fill_folder` issues, in order (source
lines 229-232): one per key of `dict_files` not present in the folder
listing. -/
def fill_folder_requests (folder_name : String) :
    List (String × String) → List String → List UploadReq
  | [], _ => []
  | (key, url) :: rest, files_in_folder =>
    if key ∉ files_in_folder then
      ⟨folder_name ++ "/" ++ key, url, true⟩ :: fill_folder_requests folder_name rest files_in_folder
    else fill_folder_requests folder_name rest files_in_folder

/-- Effect of a sequence of upload requests on a path-keyed remote store:
each request overwrites (or creates) the content at its path. -/
def applyReqs : List UploadReq → List (String × String) → List (String × String)
  | [], store => store
  | r :: rest, store => applyReqs rest (aset store r.path r.url)

/-- C5: the plan partitions the export mapping's key set exactly — a key is
skipped iff it is present remotely, uploaded (with its source url) iff it is
absent, every key lands on exactly one side, and no name is on both sides. -/
theorem fill_folder_plan_partition (d : List (String × String)) (r : List String) :
    (∀ k u, (k, u) ∈ (fill_folder_plan d r).toUpload → (k, u) ∈ d ∧ k ∉ r) ∧
    (∀ k, k ∈ (fill_folder_plan d r).toUpload.map Prod.fst ↔ k ∈ d.map Prod.fst ∧ k ∉ r) ∧
    (∀ k, k ∈ (fill_folder_plan d r).toSkip ↔ k ∈ d.map Prod.fst ∧ k ∈ r) ∧
    (∀ k, k ∈ d.map Prod.fst ↔
      (k ∈ (fill_folder_plan d r).toUpload.map Prod.fst ∨ k ∈ (fill_folder_plan d r).toSkip)) ∧
    (∀ k, ¬(k ∈ (fill_folder_plan d r).toUpload.map Prod.fst ∧ k ∈ (fill_folder_plan d r).toSkip)) := by
  induction d with
  | nil =>
    simp [fill_folder_plan]
  | cons e rest ih =>
    obtain ⟨key, url⟩ := e
    obtain ⟨ih1, ih2, ih3, ih4, ih5⟩ := ih
    by_cases hin : key ∈ r
    · rw [fill_folder_plan, if_neg (by simp [hin])]
      refine ⟨?_, ?_, ?_, ?_, ?_⟩
      · intro k u hm
        obtain ⟨hd, hr⟩ := ih1 k u hm
        exact ⟨by simp [hd], hr⟩
      · intro k
        rw [ih2 k]
        simp only [List.map_cons, List.mem_cons]
        constructor
        · rintro ⟨hd, hr⟩
          exact ⟨Or.inr hd, hr⟩
        · rintro ⟨hd | hd, hr⟩
          · exact absurd (hd ▸ hin) hr
          · exact ⟨hd, hr⟩
      · intro k
        simp only [List.mem_cons, List.map_cons]
        rw [ih3 k]
        constructor
        · rintro (rfl | ⟨hd, hr⟩)
          · exact ⟨Or.inl rfl, hin⟩
          · exact ⟨Or.inr hd, hr⟩
        · rintro ⟨hd | hd, hr⟩
          · exact Or.inl hd
          · exact Or.inr ⟨hd, hr⟩
      · intro k
        simp only [List.map_cons, List.mem_cons]
        rw [ih4 k]
        constructor
        · rintro (rfl | hm | hm)
          · exact Or.inr (Or.inl rfl)
          · exact Or.inl hm
          · exact Or.inr (Or.inr hm)
        · rintro (hm | rfl | hm)
          · exact Or.inr (Or.inl hm)
          · exact Or.inl rfl
          · exact Or.inr (Or.inr hm)
      · intro k
        rintro ⟨hup, hsk⟩
        rcases List.mem_cons.mp hsk with rfl | hsk
        · exact ((ih2 k).mp hup).2 hin
        · exact ih5 k ⟨hup, hsk⟩
    · rw [fill_folder_plan, if_pos (by simp [hin])]
      refine ⟨?_, ?_, ?_, ?_, ?_⟩
      · intro k u hm
        rcases List.mem_cons.mp hm with he | hm
        · have hk : k = key := congrArg Prod.fst he
          have hu : u = url := congrArg Prod.snd he
          subst hk
          subst hu
          exact ⟨by simp, hin⟩
        · obtain ⟨hd, hr⟩ := ih1 k u hm
          exact ⟨by simp [hd], hr⟩
      · intro k
        simp only [List.map_cons, List.mem_cons]
        rw [ih2 k]
        constructor
        · rintro (rfl | ⟨hd, hr⟩)
          · exact ⟨Or.inl rfl, hin⟩
          · exact ⟨Or.inr hd, hr⟩
        · rintro ⟨hd | hd, hr⟩
          · exact Or.inl hd
          · exact Or.inr ⟨hd, hr⟩
      · intro k
        rw [ih3 k]
        simp only [List.map_cons, List.mem_cons]
        constructor
        · rintro ⟨hd, hr⟩
          exact ⟨Or.inr hd, hr⟩
        · rintro ⟨hd | hd, hr⟩
          · exact absurd (hd ▸ hr) hin
          · exact ⟨hd, hr⟩
      · intro k
        simp only [List.map_cons, List.mem_cons]
        rw [ih4 k]
        constructor
        · rintro (rfl | hm | hm)
          · exact Or.inl (Or.inl rfl)
          · exact Or.inl (Or.inr hm)
          · exact Or.inr hm
        · rintro ((rfl | hm) | hm)
          · exact Or.inl rfl
          · exact Or.inr (Or.inl hm)
          · exact Or.inr (Or.inr hm)
      · intro k
        rintro ⟨hup, hsk⟩
        rcases List.mem_cons.mp hup with rfl | hup
        · exact hin (((ih3 k).mp hsk).2)
        · exact ih5 k ⟨hup, hsk⟩

/-- Witness for C5 at a concrete export mapping and remote listing. -/
theorem fill_folder_plan_partition_witness :
    (∀ k u, (k, u) ∈ (fill_folder_plan [("a.jpg", "u1"), ("b.jpg", "u2")] ["b.jpg"]).toUpload →
      (k, u) ∈ [("a.jpg", "u1"), ("b.jpg", "u2")] ∧ k ∉ ["b.jpg"]) ∧
    (∀ k, k ∈ (fill_folder_plan [("a.jpg", "u1"), ("b.jpg", "u2")] ["b.jpg"]).toUpload.map Prod.fst ↔
      k ∈ [("a.jpg", "u1"), ("b.jpg", "u2")].map Prod.fst ∧ k ∉ ["b.jpg"]) ∧
    (∀ k, k ∈ (fill_folder_plan [("a.jpg", "u1"), ("b.jpg", "u2")] ["b.jpg"]).toSkip ↔
      k ∈ [("a.jpg", "u1"), ("b.jpg", "u2")].map Prod.fst ∧ k ∈ ["b.jpg"]) ∧
    (∀ k, k ∈ [("a.jpg", "u1"), ("b.jpg", "u2")].map Prod.fst ↔
      (k ∈ (fill_folder_plan [("a.jpg", "u1"), ("b.jpg", "u2")] ["b.jpg"]).toUpload.map Prod.fst ∨
        k ∈ (fill_folder_plan [("a.jpg", "u1"), ("b.jpg", "u2")] ["b.jpg"]).toSkip)) ∧
    (∀ k, ¬(k ∈ (fill_folder_plan [("a.jpg", "u1"), ("b.jpg", "u2")] ["b.jpg"]).toUpload.map Prod.fst ∧
      k ∈ (fill_folder_plan [("a.jpg", "u1"), ("b.jpg", "u2")] ["b.jpg"]).toSkip)) :=
  fill_folder_plan_partition [("a.jpg", "u1"), ("b.jpg", "u2")] ["b.jpg"]

/-- C6: planning is deterministic and idempotent — two evaluations on equal
export mappings and equal remote listings produce identical plans. -/
theorem fill_folder_plan_deterministic (d1 d2 : List (String × String)) (r1 r2 : List String)
    (hd : d1 = d2) (hr : r1 = r2) : fill_folder_plan d1 r1 = fill_folder_plan d2 r2 := by
  rw [hd, hr]

/-- Witness for C6 at a concrete input. -/
theorem fill_folder_plan_deterministic_witness :
    fill_folder_plan [("a.jpg", "u1")] ["b.jpg"] = fill_folder_plan [("a.jpg", "u1")] ["b.jpg"] :=
  fill_folder_plan_deterministic [("a.jpg", "u1")] [("a.jpg", "u1")] ["b.jpg"] ["b.jpg"] rfl rfl

/-- C10: every request `fill_folder` issues is an upload of a key of its
input mapping (absent from the remote listing) to the path
`folder/key`; applying the whole request trace to a path-keyed store leaves
every path other than those keys' paths unchanged — nothing is deleted or
renamed. -/
theorem fill_folder_requests_frame (folder : String) (d : List (String × String))
    (r : List String) (store : List (String × String)) (p : String)
    (hp : ∀ k, k ∈ d.map Prod.fst → p ≠ folder ++ "/" ++ k) :
    (∀ req ∈ fill_folder_requests folder d r,
      ∃ k u, (k, u) ∈ d ∧ k ∉ r ∧ req = ⟨folder ++ "/" ++ k, u, true⟩) ∧
    alookup (applyReqs (fill_folder_requests folder d r) store) p = alookup store p := by
  induction d generalizing store with
  | nil =>
    simp [fill_folder_requests, applyReqs]
  | cons e rest ih =>
    obtain ⟨key, url⟩ := e
    have hp' : ∀ k, k ∈ rest.map Prod.fst → p ≠ folder ++ "/" ++ k :=
      fun k hk => hp k (by simp [hk])
    by_cases hin : key ∈ r
    · rw [fill_folder_requests, if_neg (by simp [hin])]
      obtain ⟨ih1, ih2⟩ := ih store hp'
      refine ⟨?_, ih2⟩
      intro req hm
      obtain ⟨k, u, hd, hr, he⟩ := ih1 req hm
      exact ⟨k, u, by simp [hd], hr, he⟩
    · rw [fill_folder_requests, if_pos (by simp [hin])]
      obtain ⟨ih1, ih2⟩ := ih (aset store (folder ++ "/" ++ key) url) hp'
      constructor
      · intro req hm
        rcases List.mem_cons.mp hm with rfl | hm
        · exact ⟨key, url, by simp, hin, rfl⟩
        · obtain ⟨k, u, hd, hr, he⟩ := ih1 req hm
          exact ⟨k, u, by simp [hd], hr, he⟩
      · rw [applyReqs, ih2,
          alookup_aset_ne _ _ _ _ (hp key (by simp))]

/-- Witness for C10: with export mapping {"a.jpg": "u1"}, empty remote
listing and empty store, the path "other" is untouched by the run. -/
theorem fill_folder_requests_frame_witness :
    alookup (applyReqs (fill_folder_requests "vk_photos" [("a.jpg", "u1")] []) []) "other"
      = alookup ([] : List (String × String)) "other" :=
  (fill_folder_requests_frame "vk_photos" [("a.jpg", "u1")] [] [] "other" (by decide)).2
